import Mathlib

/-!
Shallow embedding of the TypeScript GraphQL schema-script builder
(`src/index.ts`): an abstract `SchemaBuilder` class holding an immutable
field registry (`_originSimple : Set`, `_originComplex : Map name ->
factory`) and a mutable selection (`_simple : Set`, `_complex : Map name ->
serialized string`), together with the static operation assembler
(`createOperationName`, `createScript`).

JavaScript `Set` is modelled as an insertion-ordered duplicate-free
`List String`; JavaScript `Map` as an insertion-ordered association list
`List (String × α)` where updating an existing key keeps its position.
Complex-field factories (`BuilderInit = (name) => new Sub(name)`) are
modelled by a `Registry` description of the child entity and the
`defaultChild` constructor call, matching the source pattern
`(e) => new PublisherSchemaBuilder(e)` (a default-populated child).
-/

namespace GqlBuilder

/-! ### JavaScript collection primitives -/

/-- JS `Set.add`: append unless already present. -/
def sAdd (l : List String) (x : String) : List String :=
  if x ∈ l then l else l ++ [x]

/-- JS `Set.delete`. -/
def sDel (l : List String) (x : String) : List String :=
  l.filter (fun y => y != x)

/-- JS `new Set(iterable)`: insert each element in order. -/
def setFromList (l : List String) : List String :=
  l.foldl sAdd []

/-- JS `Map.has`. -/
def mHas {α : Type} (m : List (String × α)) (k : String) : Bool :=
  m.any (fun p => p.1 == k)

/-- JS `Map.get`. -/
def mGet {α : Type} (m : List (String × α)) (k : String) : Option α :=
  (m.find? (fun p => p.1 == k)).map (fun p => p.2)

/-- JS `Map.set`: update in place (keeping the key position) or append. -/
def mSet {α : Type} (m : List (String × α)) (k : String) (v : α) :
    List (String × α) :=
  if mHas m k then m.map (fun p => if p.1 == k then (p.1, v) else p)
  else m ++ [(k, v)]

/-- JS `Map.delete`. -/
def mDel {α : Type} (m : List (String × α)) (k : String) : List (String × α) :=
  m.filter (fun p => p.1 != k)

/-- JS `new Map(pairs)`: insert each pair in order with `Map.set` semantics. -/
def mapFromPairs {α : Type} (l : List (String × α)) : List (String × α) :=
  l.foldl (fun acc p => mSet acc p.1 p.2) []

/-- Key list of an optional map (`undefined` map has no keys). -/
def keysOpt {α : Type} : Option (List (String × α)) → List String
  | none => []
  | some m => m.map (fun p => p.1)

/-- JS `map?.has(k)` with optional chaining. -/
def mHasOpt {α : Type} (m : Option (List (String × α))) (k : String) : Bool :=
  match m with
  | none => false
  | some m => mHas m k

/-- JS `Array.prototype.join(sep)`. -/
def joinSep (sep : String) : List String → String
  | [] => ""
  | [a] => a
  | a :: b :: rest => a ++ sep ++ joinSep sep (b :: rest)

/-! ### `camelToSnakeCase` (src/index.ts lines 3-7) -/

/-- `text.split(/(?=[A-Z])/)`: start a new segment before each ASCII
uppercase letter; no empty leading segment. `cur` holds the current
segment reversed. -/
def camelSegsAux : List Char → List Char → List String
  | cur, [] => [String.mk cur.reverse]
  | cur, c :: rest =>
    if c.isUpper then
      match cur with
      | [] => camelSegsAux [c] rest
      | _ => String.mk cur.reverse :: camelSegsAux [c] rest
    else
      camelSegsAux (c :: cur) rest

/-- JS `String.prototype.toUpperCase` (ASCII, per-character). -/
def strToUpper (s : String) : String :=
  String.mk (s.data.map Char.toUpper)

/-- JS `String.prototype.toLowerCase` (ASCII, per-character). -/
def strToLower (s : String) : String :=
  String.mk (s.data.map Char.toLower)

/-- `camelToSnakeCase(text, toUpper)`. -/
def camelToSnakeCase (text : String) (toUpper : Bool) : String :=
  let result := joinSep "_" (camelSegsAux [] text.data)
  if toUpper then strToUpper result else strToLower result

/-! ### Registry and node state -/

/-- A per-entity field registry description: the raw simple-field name list
and the `[fieldName, fieldConstructor]` pairs, where each constructor is
the standard source pattern `(e) => new ChildBuilder(e)` described by the
child registry. -/
inductive Registry where
  | mk (simples : List String) (cplxs : List (String × Registry)) : Registry

def Registry.simples : Registry → List String
  | .mk s _ => s

def Registry.cplxs : Registry → List (String × Registry)
  | .mk _ c => c

/-- The state of one `SchemaBuilder` instance: `name` (`none` models a JS
`null` name), the immutable origin registry (`originComplex = none` models
the `undefined` `_originComplex` left unset when no complex pairs were
supplied), and the mutable selection. -/
structure Node where
  name : Option String
  originSimple : List String
  originComplex : Option (List (String × Registry))
  simple : List String
  cplx : List (String × String)

/-- JS string coercion of `this.name` in `this.name + ' '`. -/
def jsName : Option String → String
  | none => "null"
  | some s => s

/-- `build(addEntryName = true)` (lines 198-206): simple fields then
complex strings, space separated inside braces; empty selection drops the
braces. -/
def buildS (n : Node) (addEntryName : Bool) : String :=
  (if addEntryName then jsName n.name ++ " " else "")
    ++ (if n.simple ++ n.cplx.map (fun p => p.2) = [] then ""
        else "\x7b" ++ joinSep " " (n.simple ++ n.cplx.map (fun p => p.2))
          ++ "\x7d")

/-- `remove(field)` (lines 64-70). -/
def removeS (n : Node) (f : String) : Node :=
  { n with cplx := mDel n.cplx f, simple := sDel n.simple f }

/-- `clear()` (lines 72-78). -/
def clearS (n : Node) : Node :=
  { n with cplx := [], simple := [] }

/-- `addComplex(complex)` (lines 85-96): guarded by `complex != null &&
complex.name` (truthy: non-null, nonempty) and `originComplex?.has(name)`;
stores the serialized string `complex.build()`. -/
def addComplexS (n : Node) (c : Option Node) : Node :=
  match c with
  | none => n
  | some c =>
    match c.name with
    | none => n
    | some s =>
      if s = "" then n
      else
        match n.originComplex with
        | none => n
        | some m =>
          if mHas m s then { n with cplx := mSet n.cplx s (buildS c true) }
          else n

/-- The `_originComplex` registry field built by the constructor: assigned
only when at least one `[fieldName, fieldConstructor]` pair was supplied
(`if (infoAboutComplex?.length)`), else left `undefined`. -/
def mkOriginComplex (c : List (String × Registry)) :
    Option (List (String × Registry)) :=
  match c with
  | [] => none
  | _ => some (mapFromPairs c)

/-- The `_originSimple` registry field built by the constructor: the set of
supplied simple names with every complex key deleted. -/
def mkOriginSimple (s : List String) (c : List (String × Registry)) :
    List String :=
  (keysOpt (mkOriginComplex c)).foldl sDel (setFromList s)

/-- The node produced by the factory call `builderInit(e)`, i.e. the source
pattern `new ChildBuilder(e)`: the protected constructor with the child
registry, name `e`, and no initial fields, which populates the selection
via `useSimpleOnly(false)` (all own simple fields, no complex fields). -/
def defaultChild (r : Registry) (e : String) : Node :=
  Node.mk (some e) (mkOriginSimple r.simples r.cplxs)
    (mkOriginComplex r.cplxs) (mkOriginSimple r.simples r.cplxs) []

/-- `getComplex(field)` (lines 102-107). -/
def getComplexS (n : Node) (f : String) : Option Node :=
  match n.originComplex with
  | none => none
  | some m =>
    match mGet m f with
    | none => none
    | some r => some (defaultChild r f)

/-- `useSimpleOnly(complexWithSimple = false)` (lines 113-132). -/
def useSimpleOnlyS (n : Node) (complexWithSimple : Bool) : Node :=
  match n.originComplex with
  | none => { n with simple := setFromList n.originSimple }
  | some m =>
    let n2 := { n with
      simple := setFromList n.originSimple,
      cplx := ([] : List (String × String)) }
    if complexWithSimple then
      m.foldl (fun acc p => addComplexS acc (some (defaultChild p.2 p.1))) n2
    else n2

/-- The complex-attachment step of `add`: look the field up in the origin
registry and attach the factory-built default child. -/
def addFStep (n : Node) (acc : Node) (f : String) : Node :=
  match n.originComplex with
  | none => acc
  | some m =>
    match mGet m f with
    | none => acc
    | some r => addComplexS acc (some (defaultChild r f))

/-- `add(...fields)` (lines 139-181): classify every requested field
against the current state first (complex-and-not-yet-selected, simple,
otherwise dropped), then attach the complex group via the factories, then
insert the simple group. -/
def addF (n : Node) (fields : List String) : Node :=
  let cs := fields.filter
    (fun f => mHasOpt n.originComplex f && !(mHas n.cplx f))
  let ss := fields.filter
    (fun f => !(mHasOpt n.originComplex f) && n.originSimple.contains f)
  let n1 := cs.foldl
    (fun acc f =>
      match n.originComplex with
      | none => acc
      | some m =>
        match mGet m f with
        | none => acc
        | some r => addComplexS acc (some (defaultChild r f))) n
  { n1 with simple := ss.foldl sAdd n1.simple }

/-- `set(...fields)` (lines 188-191): `clear()` then `add(...fields)`. -/
def setF (n : Node) (fields : List String) : Node :=
  addF (clearS n) fields

/-- The constructor body (lines 30-62) minus the throw: build the origin
registry (`_originComplex` only assigned when complex pairs were supplied;
complex keys deleted from the simple set), then populate via
`add(...initFields)` when a nonempty initial list was given, else
`useSimpleOnly(false)`. -/
def mkNodeCore (simples : List String) (nm : Option String)
    (initF : Option (List String)) (cplxPairs : List (String × Registry)) :
    Node :=
  match initF with
  | some (f :: fs) =>
    addF (Node.mk nm (mkOriginSimple simples cplxPairs)
      (mkOriginComplex cplxPairs) [] []) (f :: fs)
  | _ =>
    useSimpleOnlyS (Node.mk nm (mkOriginSimple simples cplxPairs)
      (mkOriginComplex cplxPairs) [] []) false

/-- The full constructor including the guard
`if (originSimple?.size === 0 && originComplex?.size === 0) throw` —
optional chaining on the possibly-`undefined` `_originComplex` yields
`undefined`, and `undefined === 0` is false, which the `match oc` branch
reproduces. -/
def mkNode (simples : List String) (nm : Option String)
    (initF : Option (List String)) (cplxPairs : List (String × Registry)) :
    Except String Node :=
  if (mkOriginSimple simples cplxPairs).isEmpty
      && (match mkOriginComplex cplxPairs with
          | none => false
          | some m => m.isEmpty)
  then Except.error "Schema does not include fields"
  else Except.ok (mkNodeCore simples nm initF cplxPairs)

/-! ### Operation assembler (lines 212-248) -/

/-- `createOperationName(scriptName)`. -/
def createOperationName (scriptName : String) : String :=
  camelToSnakeCase scriptName true

/-- The `resultSchema` argument: a builder, a literal string, or absent. -/
def ResultSchema : Type := Option (Node ⊕ String)

/-- `createScript(scriptType, name, resultSchema?, ...paramsMapping)`:
the absent `resultSchema` branch concatenates the JS `null` into the
schema string (`'...' + null`), producing the text `"null"`; variable
declarations are joined with a newline, arguments with `", "`. -/
def createScript (scriptType : String) (nm : String)
    (resultSchema : Option (Node ⊕ String))
    (paramsMapping : List (String × String)) : String :=
  let args := joinSep ", " (paramsMapping.map (fun p => p.1 ++ ": $" ++ p.1))
  let schemaPre :=
    (if args = "" then "" else "(" ++ args ++ ")")
      ++ (match resultSchema with
          | none => "null"
          | some (Sum.inl b) => buildS b false
          | some (Sum.inr s) => s)
  let schema := if schemaPre = "" then "" else schemaPre
  let operationName := scriptType ++ " " ++ createOperationName nm
  let preparedParams := joinSep "\n"
    (paramsMapping.map
      (fun p => "$" ++ p.1 ++ ": " ++ (if p.2 = "" then "String!" else p.2)))
  let params := if preparedParams = "" then "" else "(" ++ preparedParams ++ ")"
  operationName ++ " " ++ params ++ " \x7b " ++ nm ++ " " ++ schema ++ " \x7d"

/-! ### The public operation surface as a step relation -/

/-- One public operation call on a node (`getComplex` and `build` are
read-only and leave the state unchanged). -/
inductive Op where
  | addOp (fields : List String)
  | removeOp (f : String)
  | setOp (fields : List String)
  | clearOp
  | addComplexOp (c : Option Node)
  | getComplexOp (f : String)
  | useSimpleOnlyOp (b : Bool)
  | buildOp (b : Bool)

def applyOp (n : Node) : Op → Node
  | .addOp fs => addF n fs
  | .removeOp f => removeS n f
  | .setOp fs => setF n fs
  | .clearOp => clearS n
  | .addComplexOp c => addComplexS n c
  | .getComplexOp _ => n
  | .useSimpleOnlyOp b => useSimpleOnlyS n b
  | .buildOp _ => n

def applyOps (ops : List Op) (n : Node) : Node :=
  ops.foldl applyOp n

/-! ### Example registries (examples/index.ts) -/

def pubReg : Registry := .mk ["name", "address"] []

def bookReg : Registry := .mk ["title", "publisher"] [("publisher", pubReg)]

def authorReg : Registry := .mk ["id", "name", "books"] [("books", bookReg)]

def pubNode : Node := defaultChild pubReg "publisher"

def bookNode : Node := defaultChild bookReg "book"

def authorNode : Node := defaultChild authorReg "author"

/-! ### Spec-side definitions (used only to state claims) -/

/-- The selection invariant claimed by the spec data model: `selectedSimple`
is a subset of `originSimple` and the keys of `selectedComplex` are a
subset of the keys of `originComplex`. -/
def SelInv (n : Node) : Prop :=
  (∀ f ∈ n.simple, f ∈ n.originSimple)
    ∧ (∀ p ∈ n.cplx, p.1 ∈ keysOpt n.originComplex)

/-- Spec-side shape of the outer parameter-declaration parenthetical of an
operation document (amended: entries separated by a newline, empty type
defaulted to String!). -/
def specDeclParen (ps : List (String × String)) : String :=
  match ps with
  | [] => ""
  | _ => "(" ++ joinSep "\n"
      (ps.map (fun p => "$" ++ p.1 ++ ": "
        ++ (if p.2 = "" then "String!" else p.2))) ++ ")"

/-- Spec-side shape of the inner `field: $field` argument parenthetical. -/
def specArgsParen (ps : List (String × String)) : String :=
  match ps with
  | [] => ""
  | _ => "(" ++ joinSep ", " (ps.map (fun p => p.1 ++ ": $" ++ p.1)) ++ ")"

/-- Spec-side result-selection fragment: a literal string verbatim, a node
serialized via `build(false)`, or the JS text of the absent value. -/
def specResPart (rs : Option (Node ⊕ String)) : String :=
  match rs with
  | none => "null"
  | some (Sum.inl b) => buildS b false
  | some (Sum.inr s) => s

/-- Spec-side default-populated complex selection: one entry per registered
complex field, holding the serialized default child. -/
def specDefaultCplx : Option (List (String × Registry)) →
    List (String × String)
  | none => []
  | some m => m.map (fun p => (p.1, buildS (defaultChild p.2 p.1) true))

/-- A registry owning a complex field registered under the empty name. -/
def emptyNameNode : Node :=
  mkNodeCore ["a"] (some "e") none [("", Registry.mk ["x"] [])]

/-- Two live objects, a parent and a child, as in the snapshot-attachment
scenario: mutating the child only rewrites the child cell. -/
def mutateChild (ops : List Op) (pc : Node × Node) : Node × Node :=
  (pc.1, applyOps ops pc.2)

/-- The call `parent.addComplex(child)` on the two-object state. -/
def attachChild (pc : Node × Node) : Node × Node :=
  (addComplexS pc.1 (some pc.2), pc.2)

/-! ### Collection lemmas -/

theorem mem_sAdd {l : List String} {x y : String} :
    y ∈ sAdd l x ↔ y ∈ l ∨ y = x := by
  unfold sAdd
  split
  · constructor
    · exact fun h => Or.inl h
    · rintro (h | rfl)
      · exact h
      · assumption
  · simp

theorem nodup_sAdd {l : List String} {x : String} (h : l.Nodup) :
    (sAdd l x).Nodup := by
  unfold sAdd
  split
  · exact h
  · rename_i hx
    simp [List.nodup_append, h, hx]

theorem mem_foldl_sAdd {l : List String} :
    ∀ {s : List String} {y : String}, y ∈ l.foldl sAdd s → y ∈ s ∨ y ∈ l := by
  induction l with
  | nil => intro s y h; exact Or.inl h
  | cons a as ih =>
    intro s y h
    rcases ih h with h1 | h1
    · rcases mem_sAdd.mp h1 with h2 | rfl
      · exact Or.inl h2
      · simp
    · simp [h1]

theorem nodup_foldl_sAdd {l : List String} :
    ∀ {s : List String}, s.Nodup → (l.foldl sAdd s).Nodup := by
  induction l with
  | nil => intro s h; exact h
  | cons a as ih => intro s h; exact ih (nodup_sAdd h)

theorem mem_setFromList {l : List String} {y : String}
    (h : y ∈ setFromList l) : y ∈ l := by
  rcases mem_foldl_sAdd h with h1 | h1
  · cases h1
  · exact h1

theorem nodup_setFromList (l : List String) : (setFromList l).Nodup :=
  nodup_foldl_sAdd List.nodup_nil

theorem setFromList_eq_self {l : List String} (h : l.Nodup) :
    setFromList l = l := by
  unfold setFromList
  suffices hgen : ∀ s : List String, s.Nodup → (∀ y ∈ s, y ∉ l) →
      l.foldl sAdd s = s ++ l by
    simpa using hgen [] List.nodup_nil (by simp)
  induction l with
  | nil => intro s _ _; simp
  | cons a as ih =>
    intro s hs hdisj
    have ha : a ∉ s := fun hmem => hdisj a hmem (by simp)
    have h1 : sAdd s a = s ++ [a] := by
      unfold sAdd
      exact if_neg ha
    have hs' : (s ++ [a]).Nodup := by
      simp only [List.nodup_append]
      refine ⟨hs, List.nodup_singleton a, ?_⟩
      intro y hy
      simp only [List.mem_singleton]
      intro hya
      exact ha (hya ▸ hy)
    have hd' : ∀ y ∈ s ++ [a], y ∉ as := by
      intro y hy
      rcases List.mem_append.mp hy with h2 | h2
      · exact fun hmem => hdisj y h2 (by simp [hmem])
      · simp only [List.mem_singleton] at h2
        subst h2
        exact (List.nodup_cons.mp h).1
    have := ih (List.nodup_cons.mp h).2 (s ++ [a]) hs' hd'
    simp only [List.foldl_cons, h1, this, List.append_assoc,
      List.singleton_append]

theorem mem_sDel {l : List String} {x y : String} :
    y ∈ sDel l x ↔ y ∈ l ∧ y ≠ x := by
  unfold sDel
  simp [List.mem_filter]

theorem nodup_sDel {l : List String} {x : String} (h : l.Nodup) :
    (sDel l x).Nodup :=
  List.Nodup.filter _ h

theorem mem_foldl_sDel {ks : List String} :
    ∀ {s : List String} {y : String}, y ∈ ks.foldl sDel s → y ∈ s := by
  induction ks with
  | nil => intro s y h; exact h
  | cons a as ih => intro s y h; exact (mem_sDel.mp (ih h)).1

theorem not_mem_foldl_sDel {ks : List String} :
    ∀ {s : List String} {y : String}, y ∈ ks → y ∉ ks.foldl sDel s := by
  induction ks with
  | nil => intro s y h; cases h
  | cons a as ih =>
    intro s y hy hmem
    rcases List.mem_cons.mp hy with rfl | h1
    · simp only [List.foldl_cons] at hmem
      have h2 : y ∈ sDel s y := mem_foldl_sDel hmem
      exact (mem_sDel.mp h2).2 rfl
    · exact ih h1 hmem

theorem nodup_foldl_sDel {ks : List String} :
    ∀ {s : List String}, s.Nodup → (ks.foldl sDel s).Nodup := by
  induction ks with
  | nil => intro s h; exact h
  | cons a as ih => intro s h; exact ih (nodup_sDel h)

theorem mHas_iff {α : Type} {m : List (String × α)} {k : String} :
    mHas m k = true ↔ k ∈ m.map (fun p => p.1) := by
  unfold mHas
  simp only [List.any_eq_true, List.mem_map]
  constructor
  · rintro ⟨p, hp, he⟩
    exact ⟨p, hp, (by simpa using he)⟩
  · rintro ⟨p, hp, he⟩
    exact ⟨p, hp, (by simpa using he)⟩

theorem mHas_eq_false {α : Type} {m : List (String × α)} {k : String}
    (h : mHas m k = false) : ∀ p ∈ m, p.1 ≠ k := by
  intro p hp he
  unfold mHas at h
  have := List.any_eq_false.mp h p hp
  simp [he] at this

theorem mSet_of_not_has {α : Type} {m : List (String × α)} {k : String}
    {v : α} (h : mHas m k = false) : mSet m k v = m ++ [(k, v)] := by
  unfold mSet
  simp [h]

theorem mem_mSet {α : Type} {m : List (String × α)} {k : String} {v : α}
    {q : String × α} (h : q ∈ mSet m k v) : q.1 = k ∨ q ∈ m := by
  unfold mSet at h
  split at h
  · rcases List.mem_map.mp h with ⟨p, hp, he⟩
    by_cases hk : p.1 = k
    · have hc : (p.1 == k) = true := by simpa using hk
      rw [if_pos hc] at he
      left
      rw [← he]
      exact hk
    · have hc : ¬((p.1 == k) = true) := by simpa using hk
      rw [if_neg hc] at he
      right
      exact he ▸ hp
  · rcases List.mem_append.mp h with h1 | h1
    · exact Or.inr h1
    · left
      simp only [List.mem_singleton] at h1
      rw [h1]

theorem mGet_mSet_aux1 {α : Type} {k : String} {v : α} :
    ∀ (m : List (String × α)), mHas m k = true →
      ((m.map (fun p => if p.1 == k then (p.1, v) else p)).find?
          (fun p => p.1 == k)).map (fun p => p.2) = some v := by
  intro m
  induction m with
  | nil => intro h; simp [mHas] at h
  | cons p ps ih =>
    intro hhas
    by_cases hk : p.1 = k
    · have hc : (p.1 == k) = true := by simpa using hk
      rw [List.map_cons, if_pos hc,
        @List.find?_cons_of_pos (String × α) (fun q => q.1 == k) (p.1, v)
          _ hc]
      rfl
    · have hk2 : (p.1 == k) = false := by simpa using hk
      have hc : ¬((p.1 == k) = true) := by simp [hk2]
      have hhas2 : mHas ps k = true := by
        unfold mHas at hhas ⊢
        simp only [List.any_cons, hk2, Bool.false_or] at hhas
        exact hhas
      rw [List.map_cons, if_neg hc,
        @List.find?_cons_of_neg (String × α) (fun q => q.1 == k) p _ hc]
      exact ih hhas2

theorem mGet_mSet_aux2 {α : Type} {k : String} {v : α} :
    ∀ (m : List (String × α)), mHas m k = false →
      ((m ++ [(k, v)]).find? (fun p => p.1 == k)).map (fun p => p.2)
        = some v := by
  intro m
  induction m with
  | nil => simp
  | cons p ps ih =>
    intro hhas
    have hk : (p.1 == k) = false := by
      unfold mHas at hhas
      simp only [List.any_cons, Bool.or_eq_false_iff] at hhas
      exact hhas.1
    have hhas2 : mHas ps k = false := by
      unfold mHas at hhas
      simp only [List.any_cons, Bool.or_eq_false_iff] at hhas
      exact hhas.2
    rw [List.cons_append,
      @List.find?_cons_of_neg (String × α) (fun q => q.1 == k) p _
        (by simp [hk])]
    exact ih hhas2

theorem mGet_mSet_self {α : Type} {m : List (String × α)} {k : String}
    {v : α} : mGet (mSet m k v) k = some v := by
  unfold mGet mSet
  split
  · rename_i hhas
    exact mGet_mSet_aux1 m hhas
  · rename_i hhas
    exact mGet_mSet_aux2 m (by simpa using hhas)

theorem keys_mSet_of_not_has {α : Type} {m : List (String × α)} {k : String}
    {v : α} (h : mHas m k = false) :
    (mSet m k v).map (fun p => p.1) = m.map (fun p => p.1) ++ [k] := by
  rw [mSet_of_not_has h]
  simp

theorem keys_map_update {α : Type} (m : List (String × α)) (k : String)
    (v : α) :
    (m.map (fun p => if p.1 == k then (p.1, v) else p)).map (fun p => p.1)
      = m.map (fun p => p.1) := by
  simp only [List.map_map]
  congr 1
  funext p
  by_cases hk : p.1 = k <;> simp [Function.comp, hk]

theorem mHas_mSet {α : Type} {m : List (String × α)} {k k' : String}
    {v : α} : mHas (mSet m k v) k' = (mHas m k' || (k == k')) := by
  unfold mSet
  split
  · rename_i hhas
    have hmap : mHas (m.map fun p => if p.1 == k then (p.1, v) else p) k'
        = mHas m k' := by
      unfold mHas
      rw [List.any_map]
      congr 1
      funext p
      by_cases hk : p.1 = k <;> simp [Function.comp, hk]
    rw [hmap]
    by_cases hk : k = k'
    · subst hk
      simp [hhas]
    · simp [hk]
  · unfold mHas
    rw [List.any_append]
    congr 1
    simp

theorem mHas_foldl_mSet {α : Type} {l : List (String × α)} :
    ∀ {acc : List (String × α)} {k : String},
      mHas (l.foldl (fun a p => mSet a p.1 p.2) acc) k = true ↔
        mHas acc k = true ∨ k ∈ l.map (fun p => p.1) := by
  induction l with
  | nil => intro acc k; simp
  | cons p ps ih =>
    intro acc k
    simp only [List.foldl_cons, List.map_cons, List.mem_cons]
    rw [ih]
    have hstep : (mHas (mSet acc p.1 p.2) k = true) ↔
        (mHas acc k = true ∨ k = p.1) := by
      rw [mHas_mSet]
      simp only [Bool.or_eq_true, beq_iff_eq]
      constructor
      · rintro (h | h)
        · exact Or.inl h
        · exact Or.inr h.symm
      · rintro (h | h)
        · exact Or.inl h
        · exact Or.inr h.symm
    rw [hstep]
    tauto

theorem mHas_mapFromPairs {α : Type} {l : List (String × α)} {k : String} :
    mHas (mapFromPairs l) k = true ↔ k ∈ l.map (fun p => p.1) := by
  unfold mapFromPairs
  rw [mHas_foldl_mSet]
  simp [mHas]

theorem keys_nodup_mSet {α : Type} {m : List (String × α)} {k : String}
    {v : α} (h : (m.map (fun p => p.1)).Nodup) :
    ((mSet m k v).map (fun p => p.1)).Nodup := by
  unfold mSet
  split
  · simp only [List.map_map]
    have : ((fun p => p.1) ∘ fun p : String × α =>
        if p.1 == k then (p.1, v) else p) = fun p : String × α => p.1 := by
      funext p
      by_cases hk : p.1 = k <;> simp [Function.comp, hk]
    rw [this]
    exact h
  · rename_i hhas
    simp only [List.map_append, List.map_cons, List.map_nil]
    simp only [List.nodup_append, List.nodup_singleton]
    refine ⟨h, by simp, ?_⟩
    intro y hy
    simp only [List.mem_singleton]
    intro hyk
    subst hyk
    exact absurd (mHas_iff.mpr hy) (by simp [hhas])

theorem keys_nodup_mapFromPairs {α : Type} (l : List (String × α)) :
    ((mapFromPairs l).map (fun p => p.1)).Nodup := by
  unfold mapFromPairs
  suffices hgen : ∀ acc : List (String × α),
      ((acc.map (fun p => p.1)).Nodup) →
      (((l.foldl (fun a p => mSet a p.1 p.2) acc).map (fun p => p.1)).Nodup) by
    exact hgen [] (by simp)
  induction l with
  | nil => intro acc h; exact h
  | cons p ps ih => intro acc h; exact ih _ (keys_nodup_mSet h)

theorem mapFromPairs_ne_nil {α : Type} {p : String × α} {l : List (String × α)} :
    mapFromPairs (p :: l) ≠ [] := by
  intro h
  have h1 : mHas (mapFromPairs (p :: l)) p.1 = true :=
    mHas_mapFromPairs.mpr (by simp)
  rw [h] at h1
  simp [mHas] at h1

/-! ### String lemmas -/

theorem length_joinSep_cons_le (sep a : String) (rest : List String) :
    a.length ≤ (joinSep sep (a :: rest)).length := by
  cases rest with
  | nil => exact Nat.le_refl _
  | cons b r =>
    show a.length ≤ (a ++ sep ++ joinSep sep (b :: r)).length
    rw [String.length_append, String.length_append]
    exact Nat.le_add_right _ _ |>.trans (Nat.le_add_right _ _)

theorem joinSep_args_ne_empty (p : String × String)
    (l : List (String × String)) :
    joinSep ", " ((p :: l).map (fun q => q.1 ++ ": $" ++ q.1)) ≠ "" := by
  intro h
  have h1 := length_joinSep_cons_le ", " (p.1 ++ ": $" ++ p.1)
    (l.map (fun q => q.1 ++ ": $" ++ q.1))
  rw [List.map_cons] at h
  rw [h] at h1
  rw [String.length_append, String.length_append,
    show (": $").length = 3 from rfl, show ("").length = 0 from rfl] at h1
  omega

theorem joinSep_params_ne_empty (p : String × String)
    (l : List (String × String)) :
    joinSep "\n" ((p :: l).map
      (fun q => "$" ++ q.1 ++ ": " ++ (if q.2 = "" then "String!" else q.2)))
      ≠ "" := by
  intro h
  have h1 := length_joinSep_cons_le "\n"
    ("$" ++ p.1 ++ ": " ++ (if p.2 = "" then "String!" else p.2))
    (l.map (fun q => "$" ++ q.1 ++ ": "
      ++ (if q.2 = "" then "String!" else q.2)))
  rw [List.map_cons] at h
  rw [h] at h1
  rw [String.length_append, String.length_append, String.length_append,
    show ("$").length = 1 from rfl, show (": ").length = 2 from rfl,
    show ("").length = 0 from rfl] at h1
  omega

theorem paren_append_ne_empty (a b : String) :
    ("(" ++ a ++ ")") ++ b ≠ "" := by
  intro h
  have h1 := congrArg String.length h
  rw [String.length_append, String.length_append, String.length_append,
    show ("(").length = 1 from rfl, show (")").length = 1 from rfl,
    show ("").length = 0 from rfl] at h1
  omega

theorem append_null_ne_empty (a : String) : a ++ "null" ≠ "" := by
  intro h
  have h1 := congrArg String.length h
  rw [String.length_append, show ("null").length = 4 from rfl,
    show ("").length = 0 from rfl] at h1
  omega

theorem if_empty_id (s : String) : (if s = "" then "" else s) = s := by
  split
  · rename_i h
    rw [h]
  · rfl

/-! ### Preservation lemmas for the node operations -/

theorem foldl_pres {β : Type} {P : Node → Prop} {step : Node → β → Node}
    (h : ∀ a b, P a → P (step a b)) :
    ∀ (l : List β) (a : Node), P a → P (l.foldl step a) := by
  intro l
  induction l with
  | nil => intro a ha; exact ha
  | cons x xs ih => intro a ha; exact ih _ (h a x ha)

theorem addComplexS_pres (n : Node) (c : Option Node) :
    (addComplexS n c).name = n.name
      ∧ (addComplexS n c).originSimple = n.originSimple
      ∧ (addComplexS n c).originComplex = n.originComplex
      ∧ (addComplexS n c).simple = n.simple := by
  unfold addComplexS
  repeat' split
  all_goals exact ⟨rfl, rfl, rfl, rfl⟩

theorem addFStep_pres (n a : Node) (f : String) :
    (addFStep n a f).name = a.name
      ∧ (addFStep n a f).originSimple = a.originSimple
      ∧ (addFStep n a f).originComplex = a.originComplex
      ∧ (addFStep n a f).simple = a.simple := by
  unfold addFStep
  repeat' split
  all_goals first
  | exact ⟨rfl, rfl, rfl, rfl⟩
  | exact addComplexS_pres a _

theorem foldl_addFStep_pres (n : Node) (l : List String) :
    ∀ (a : Node),
      (l.foldl (addFStep n) a).name = a.name
        ∧ (l.foldl (addFStep n) a).originSimple = a.originSimple
        ∧ (l.foldl (addFStep n) a).originComplex = a.originComplex
        ∧ (l.foldl (addFStep n) a).simple = a.simple := by
  induction l with
  | nil => intro a; exact ⟨rfl, rfl, rfl, rfl⟩
  | cons x xs ih =>
    intro a
    have hs := addFStep_pres n a x
    have ht := ih (addFStep n a x)
    exact ⟨ht.1.trans hs.1, ht.2.1.trans hs.2.1,
      ht.2.2.1.trans hs.2.2.1, ht.2.2.2.trans hs.2.2.2⟩

theorem addF_eq (n : Node) (fs : List String) :
    addF n fs =
      { (fs.filter (fun f => mHasOpt n.originComplex f
          && !(mHas n.cplx f))).foldl (addFStep n) n with
        simple := (fs.filter (fun f => !(mHasOpt n.originComplex f)
          && n.originSimple.contains f)).foldl sAdd
          ((fs.filter (fun f => mHasOpt n.originComplex f
            && !(mHas n.cplx f))).foldl (addFStep n) n).simple } := by
  rfl

theorem addF_pres (n : Node) (fs : List String) :
    (addF n fs).name = n.name
      ∧ (addF n fs).originSimple = n.originSimple
      ∧ (addF n fs).originComplex = n.originComplex := by
  rw [addF_eq]
  have h := foldl_addFStep_pres n
    (fs.filter (fun f => mHasOpt n.originComplex f && !(mHas n.cplx f))) n
  exact ⟨h.1, h.2.1, h.2.2.1⟩

theorem foldl_attach_pres (l : List (String × Registry)) :
    ∀ (a : Node),
      (l.foldl (fun acc p =>
        addComplexS acc (some (defaultChild p.2 p.1))) a).name = a.name
      ∧ (l.foldl (fun acc p =>
        addComplexS acc (some (defaultChild p.2 p.1))) a).originSimple
        = a.originSimple
      ∧ (l.foldl (fun acc p =>
        addComplexS acc (some (defaultChild p.2 p.1))) a).originComplex
        = a.originComplex
      ∧ (l.foldl (fun acc p =>
        addComplexS acc (some (defaultChild p.2 p.1))) a).simple
        = a.simple := by
  induction l with
  | nil => intro a; exact ⟨rfl, rfl, rfl, rfl⟩
  | cons x xs ih =>
    intro a
    have hs := addComplexS_pres a (some (defaultChild x.2 x.1))
    have ht := ih (addComplexS a (some (defaultChild x.2 x.1)))
    exact ⟨ht.1.trans hs.1, ht.2.1.trans hs.2.1,
      ht.2.2.1.trans hs.2.2.1, ht.2.2.2.trans hs.2.2.2⟩

theorem useSimpleOnlyS_pres (n : Node) (b : Bool) :
    (useSimpleOnlyS n b).name = n.name
      ∧ (useSimpleOnlyS n b).originSimple = n.originSimple
      ∧ (useSimpleOnlyS n b).originComplex = n.originComplex := by
  unfold useSimpleOnlyS
  cases hoc : n.originComplex with
  | none => exact ⟨rfl, rfl, rfl⟩
  | some m =>
    cases b with
    | false => exact ⟨rfl, rfl, rfl⟩
    | true =>
      have h := foldl_attach_pres m
        ({ name := n.name, originSimple := n.originSimple,
           originComplex := some m, simple := setFromList n.originSimple,
           cplx := ([] : List (String × String)) })
      exact ⟨h.1, h.2.1, h.2.2.1⟩

theorem selInv_clearS (n : Node) : SelInv (clearS n) := by
  constructor
  · intro x hx
    cases hx
  · intro p hp
    cases hp

theorem selInv_removeS (n : Node) (f : String) (h : SelInv n) :
    SelInv (removeS n f) := by
  constructor
  · intro x hx
    exact h.1 x (mem_sDel.mp hx).1
  · intro p hp
    exact h.2 p (List.mem_filter.mp hp).1

theorem selInv_addComplexS (n : Node) (c : Option Node) (h : SelInv n) :
    SelInv (addComplexS n c) := by
  unfold addComplexS
  repeat' split
  any_goals exact h
  rename_i c' s hs m hoc hhas
  constructor
  · intro x hx
    exact h.1 x hx
  · intro p hp
    rcases mem_mSet hp with h1 | h1
    · rw [hoc]
      simp only [keysOpt]
      rw [h1]
      exact mHas_iff.mp hhas
    · exact h.2 p h1

theorem selInv_addFStep (n a : Node) (f : String) (h : SelInv a) :
    SelInv (addFStep n a f) := by
  unfold addFStep
  repeat' split
  any_goals exact h
  exact selInv_addComplexS a _ h

theorem selInv_addF (n : Node) (fs : List String) (h : SelInv n) :
    SelInv (addF n fs) := by
  rw [addF_eq]
  have hfoldInv : SelInv ((fs.filter (fun f => mHasOpt n.originComplex f
      && !(mHas n.cplx f))).foldl (addFStep n) n) :=
    foldl_pres (fun a f ha => selInv_addFStep n a f ha) _ n h
  have hpres := foldl_addFStep_pres n
    (fs.filter (fun f => mHasOpt n.originComplex f && !(mHas n.cplx f))) n
  constructor
  · intro x hx
    rcases mem_foldl_sAdd hx with h1 | h1
    · rw [hpres.2.2.2] at h1
      have h2 : x ∈ n.originSimple := h.1 x h1
      rw [← hpres.2.1] at h2
      exact h2
    · have h2 := (List.mem_filter.mp h1).2
      simp only [Bool.and_eq_true] at h2
      have h4 : x ∈ n.originSimple := by simpa using h2.2
      rw [← hpres.2.1] at h4
      exact h4
  · intro p hp
    exact hfoldInv.2 p hp

theorem selInv_setF (n : Node) (fs : List String) : SelInv (setF n fs) :=
  selInv_addF _ _ (selInv_clearS n)

theorem selInv_useSimpleOnlyS (n : Node) (b : Bool) (h : SelInv n) :
    SelInv (useSimpleOnlyS n b) := by
  unfold useSimpleOnlyS
  cases hoc : n.originComplex with
  | none =>
    constructor
    · intro x hx
      exact mem_setFromList hx
    · intro p hp
      have h2 := h.2 p hp
      rw [hoc] at h2
      exact h2
  | some m =>
    cases b with
    | false =>
      constructor
      · intro x hx
        exact mem_setFromList hx
      · intro p hp
        cases hp
    | true =>
      apply foldl_pres (fun a q ha => selInv_addComplexS a _ ha)
      constructor
      · intro x hx
        exact mem_setFromList hx
      · intro p hp
        cases hp

theorem applyOp_pres (n : Node) (op : Op) :
    (applyOp n op).name = n.name
      ∧ (applyOp n op).originSimple = n.originSimple
      ∧ (applyOp n op).originComplex = n.originComplex := by
  cases op with
  | addOp fs =>
    exact ⟨(addF_pres n fs).1, (addF_pres n fs).2.1, (addF_pres n fs).2.2⟩
  | removeOp f => exact ⟨rfl, rfl, rfl⟩
  | setOp fs =>
    exact ⟨(addF_pres (clearS n) fs).1, (addF_pres (clearS n) fs).2.1,
      (addF_pres (clearS n) fs).2.2⟩
  | clearOp => exact ⟨rfl, rfl, rfl⟩
  | addComplexOp c =>
    exact ⟨(addComplexS_pres n c).1, (addComplexS_pres n c).2.1,
      (addComplexS_pres n c).2.2.1⟩
  | getComplexOp f => exact ⟨rfl, rfl, rfl⟩
  | useSimpleOnlyOp b =>
    exact ⟨(useSimpleOnlyS_pres n b).1, (useSimpleOnlyS_pres n b).2.1,
      (useSimpleOnlyS_pres n b).2.2⟩
  | buildOp b => exact ⟨rfl, rfl, rfl⟩

theorem applyOps_pres (ops : List Op) (n : Node) :
    (applyOps ops n).name = n.name
      ∧ (applyOps ops n).originSimple = n.originSimple
      ∧ (applyOps ops n).originComplex = n.originComplex := by
  unfold applyOps
  induction ops generalizing n with
  | nil => exact ⟨rfl, rfl, rfl⟩
  | cons op ops ih =>
    refine (ih (applyOp n op)).imp (fun h1 => h1.trans ?_)
      (fun h2 => h2.imp (fun h3 => h3.trans ?_) (fun h4 => h4.trans ?_))
    · exact (applyOp_pres n op).1
    · exact (applyOp_pres n op).2.1
    · exact (applyOp_pres n op).2.2

theorem selInv_applyOp (n : Node) (op : Op) (h : SelInv n) :
    SelInv (applyOp n op) := by
  cases op with
  | addOp fs => exact selInv_addF n fs h
  | removeOp f => exact selInv_removeS n f h
  | setOp fs => exact selInv_setF n fs
  | clearOp => exact selInv_clearS n
  | addComplexOp c => exact selInv_addComplexS n c h
  | getComplexOp f => exact h
  | useSimpleOnlyOp b => exact selInv_useSimpleOnlyS n b h
  | buildOp b => exact h

theorem selInv_applyOps (ops : List Op) (n : Node) (h : SelInv n) :
    SelInv (applyOps ops n) := by
  unfold applyOps
  induction ops generalizing n with
  | nil => exact h
  | cons op ops ih => exact ih (applyOp n op) (selInv_applyOp n op h)

theorem selInv_mkNodeCore (s : List String) (nm : Option String)
    (i : Option (List String)) (c : List (String × Registry)) :
    SelInv (mkNodeCore s nm i c) := by
  unfold mkNodeCore
  have h0 : ∀ n0 : Node, n0.simple = [] → n0.cplx = [] → SelInv n0 := by
    intro n0 h1 h2
    constructor
    · intro x hx
      rw [h1] at hx
      cases hx
    · intro p hp
      rw [h2] at hp
      cases hp
  cases i with
  | none => exact selInv_useSimpleOnlyS _ false (h0 _ rfl rfl)
  | some l =>
    cases l with
    | nil => exact selInv_useSimpleOnlyS _ false (h0 _ rfl rfl)
    | cons f fs => exact selInv_addF _ _ (h0 _ rfl rfl)

theorem mkNodeCore_originComplex (s : List String) (nm : Option String)
    (i : Option (List String)) (c : List (String × Registry)) :
    (mkNodeCore s nm i c).originComplex = mkOriginComplex c := by
  unfold mkNodeCore
  cases i with
  | none => exact (useSimpleOnlyS_pres _ false).2.2
  | some l =>
    cases l with
    | nil => exact (useSimpleOnlyS_pres _ false).2.2
    | cons f fs => exact (addF_pres _ _).2.2

theorem mkNodeCore_originSimple (s : List String) (nm : Option String)
    (i : Option (List String)) (c : List (String × Registry)) :
    (mkNodeCore s nm i c).originSimple = mkOriginSimple s c := by
  unfold mkNodeCore
  cases i with
  | none => exact (useSimpleOnlyS_pres _ false).2.1
  | some l =>
    cases l with
    | nil => exact (useSimpleOnlyS_pres _ false).2.1
    | cons f fs => exact (addF_pres _ _).2.1

theorem mkNodeCore_originSimple_nodup (s : List String) (nm : Option String)
    (i : Option (List String)) (c : List (String × Registry)) :
    (mkNodeCore s nm i c).originSimple.Nodup := by
  rw [mkNodeCore_originSimple]
  exact nodup_foldl_sDel (nodup_setFromList s)

theorem mkOriginSimple_nodup (s : List String)
    (c : List (String × Registry)) : (mkOriginSimple s c).Nodup :=
  nodup_foldl_sDel (nodup_setFromList s)

theorem mkOriginComplex_some {c : List (String × Registry)}
    {m : List (String × Registry)} (h : mkOriginComplex c = some m) :
    m = mapFromPairs c := by
  unfold mkOriginComplex at h
  cases c with
  | nil => cases h
  | cons p ps => exact (Option.some.inj h).symm

theorem addComplexS_some_eq (n c : Node) (s : String)
    {m : List (String × Registry)} (h1 : c.name = some s) (h2 : s ≠ "")
    (hoc : n.originComplex = some m) (hhas : mHas m s = true) :
    addComplexS n (some c) =
      { n with cplx := mSet n.cplx s (buildS c true) } := by
  unfold addComplexS
  simp only [h1, hoc]
  rw [if_neg h2, if_pos hhas]

theorem addComplexS_unregistered (n c : Node) (s : String)
    (h1 : c.name = some s) (h2 : mHasOpt n.originComplex s = false) :
    addComplexS n (some c) = n := by
  unfold addComplexS
  simp only [h1]
  by_cases hs : s = ""
  · rw [if_pos hs]
  · rw [if_neg hs]
    cases hoc : n.originComplex with
    | none => rfl
    | some m =>
      have hm : mHas m s = false := by
        unfold mHasOpt at h2
        rw [hoc] at h2
        exact h2
      exact if_neg (by simp [hm])

theorem useSimpleOnlyS_none (n : Node) (b : Bool)
    (h : n.originComplex = none) :
    useSimpleOnlyS n b = { n with simple := setFromList n.originSimple } := by
  unfold useSimpleOnlyS
  rw [h]

theorem useSimpleOnlyS_false_some (n : Node) {m : List (String × Registry)}
    (h : n.originComplex = some m) :
    useSimpleOnlyS n false =
      { n with
        simple := setFromList n.originSimple,
        cplx := ([] : List (String × String)) } := by
  unfold useSimpleOnlyS
  rw [h]
  rfl

theorem useSimpleOnlyS_true_some (n : Node) {m : List (String × Registry)}
    (h : n.originComplex = some m) :
    useSimpleOnlyS n true =
      m.foldl (fun acc p => addComplexS acc (some (defaultChild p.2 p.1)))
        ({ n with
          simple := setFromList n.originSimple,
          cplx := ([] : List (String × String)) }) := by
  unfold useSimpleOnlyS
  rw [h]
  rfl

theorem useSimpleOnlyS_false_selection (x : Node)
    (hx : x.originSimple.Nodup) (hcplx : x.originComplex = none → x.cplx = []) :
    (useSimpleOnlyS x false).simple = x.originSimple
    ∧ (useSimpleOnlyS x false).cplx = [] := by
  cases hmc : x.originComplex with
  | none =>
    rw [useSimpleOnlyS_none x false hmc]
    exact ⟨setFromList_eq_self hx, hcplx hmc⟩
  | some m =>
    rw [useSimpleOnlyS_false_some x hmc]
    exact ⟨setFromList_eq_self hx, rfl⟩

theorem cplx_nil_of_none (n : Node) (hinv : SelInv n)
    (h : n.originComplex = none) : n.cplx = [] := by
  cases hc : n.cplx with
  | nil => rfl
  | cons p ps =>
    have := hinv.2 p (by rw [hc]; simp)
    rw [h] at this
    cases this

theorem foldl_attach_cplx
    {m : List (String × Registry)} (rest : List (String × Registry)) :
    ∀ (acc : Node),
      acc.originComplex = some m →
      (∀ p ∈ rest, mHas m p.1 = true) →
      (∀ p ∈ rest, p.1 ≠ "") →
      (∀ p ∈ rest, mHas acc.cplx p.1 = false) →
      (rest.map (fun p => p.1)).Nodup →
      (rest.foldl (fun a q => addComplexS a (some (defaultChild q.2 q.1)))
          acc).cplx
        = acc.cplx
          ++ rest.map (fun q => (q.1, buildS (defaultChild q.2 q.1) true)) := by
  induction rest with
  | nil => intro acc _ _ _ _ _; simp
  | cons q qs ih =>
    intro acc hoc hhas hne hfresh hnodup
    have hname : (defaultChild q.2 q.1).name = some q.1 := rfl
    have hstep : addComplexS acc (some (defaultChild q.2 q.1)) =
        { acc with
          cplx := mSet acc.cplx q.1 (buildS (defaultChild q.2 q.1) true) } :=
      addComplexS_some_eq acc _ q.1 hname (hne q (by simp)) hoc
        (hhas q (by simp))
    have hset : mSet acc.cplx q.1 (buildS (defaultChild q.2 q.1) true)
        = acc.cplx ++ [(q.1, buildS (defaultChild q.2 q.1) true)] :=
      mSet_of_not_has (hfresh q (by simp))
    have hq_fresh : ∀ p ∈ qs, p.1 ≠ q.1 := by
      intro p hp he
      have h1 : q.1 ∈ qs.map (fun r => r.1) := by
        rw [← he]
        exact List.mem_map.mpr ⟨p, hp, rfl⟩
      simp only [List.map_cons, List.nodup_cons] at hnodup
      exact hnodup.1 h1
    have ihapp := ih ({ acc with
        cplx := acc.cplx ++ [(q.1, buildS (defaultChild q.2 q.1) true)] })
      hoc
      (fun p hp => hhas p (by simp [hp]))
      (fun p hp => hne p (by simp [hp]))
      (by
        intro p hp
        unfold mHas
        rw [List.any_append]
        have h1 : mHas acc.cplx p.1 = false := hfresh p (by simp [hp])
        unfold mHas at h1
        rw [h1]
        have h2 : ¬q.1 = p.1 := fun he => hq_fresh p hp he.symm
        simp [h2])
      (by
        simp only [List.map_cons, List.nodup_cons] at hnodup
        exact hnodup.2)
    rw [List.foldl_cons, hstep, hset]
    rw [ihapp]
    simp [List.append_assoc]

theorem mkNode_eq_ok (s : List String) (nm : Option String)
    (i : Option (List String)) (c : List (String × Registry)) :
    mkNode s nm i c = Except.ok (mkNodeCore s nm i c) := by
  unfold mkNode
  cases c with
  | nil =>
    have h : (match mkOriginComplex ([] : List (String × Registry)) with
        | none => false
        | some m => m.isEmpty) = false := rfl
    exact if_neg (by rw [h]; simp)
  | cons p ps =>
    have h1 : mapFromPairs (p :: ps) ≠ [] := mapFromPairs_ne_nil
    have h2 : (mapFromPairs (p :: ps)).isEmpty = false := by
      cases hm : mapFromPairs (p :: ps) with
      | nil => exact absurd hm h1
      | cons q qs => rfl
    simp only [mkOriginComplex, h2, Bool.and_false]
    rfl

/-! ### Assembler format lemma shared by the C3 and C10 theorems -/

theorem createScript_eq (k nm : String) (rs : Option (Node ⊕ String))
    (ps : List (String × String)) :
    createScript k nm rs ps =
      k ++ " " ++ createOperationName nm ++ " " ++ specDeclParen ps
        ++ " \x7b " ++ nm ++ " " ++ specArgsParen ps ++ specResPart rs
        ++ " \x7d" := by
  simp only [createScript]
  cases ps with
  | nil =>
    simp only [List.map_nil, joinSep]
    rw [if_empty_id]
    simp only [if_true, specDeclParen, specArgsParen, specResPart,
      String.append_empty, String.empty_append, String.append_assoc]
  | cons p l =>
    rw [if_neg (joinSep_args_ne_empty p l),
      if_neg (joinSep_params_ne_empty p l),
      if_neg (paren_append_ne_empty _ _)]
    simp only [specDeclParen, specArgsParen, specResPart,
      String.append_empty, String.empty_append, String.append_assoc]

theorem addF_unknown_noop (n : Node) (f : String)
    (h1 : f ∉ n.originSimple) (h2 : mHasOpt n.originComplex f = false) :
    addF n [f] = n := by
  have hcs : [f].filter
      (fun g => mHasOpt n.originComplex g && !(mHas n.cplx g)) = [] := by
    simp [List.filter, h2]
  have hss : [f].filter
      (fun g => !(mHasOpt n.originComplex g) && n.originSimple.contains g)
      = [] := by
    simp [List.filter, h1]
  rw [addF_eq, hcs, hss]
  rfl

theorem removeS_noop (n : Node) (f : String) (h1 : f ∉ n.simple)
    (h2 : mHas n.cplx f = false) : removeS n f = n := by
  have hs : sDel n.simple f = n.simple := by
    apply List.filter_eq_self.mpr
    intro y hy
    have : y ≠ f := fun he => h1 (he ▸ hy)
    simpa using this
  have hc : mDel n.cplx f = n.cplx := by
    apply List.filter_eq_self.mpr
    intro p hp
    have := mHas_eq_false h2 p hp
    simpa using this
  unfold removeS
  rw [hs, hc]

/-! ### Claim theorems -/

/-- C1: the spec claims a registry with zero simple and zero complex fields
fails construction with the "Schema does not include fields" error. In the
code this guard is dead: `_originComplex` is only assigned when at least
one complex pair exists, so `originComplex?.size === 0` never holds, and
construction always succeeds — in particular at the zero-field input
(empty simple list, no complex pairs) construction returns a node instead
of the error. -/
theorem c1_construction_guard_dead :
    (∀ (s : List String) (nm : Option String) (i : Option (List String))
      (c : List (String × Registry)), (mkNode s nm i c).isOk = true)
    ∧ mkNode [] (some "x") none [] =
      Except.ok (Node.mk (some "x") [] none [] []) := by
  constructor
  · intro s nm i c
    rw [mkNode_eq_ok]
    rfl
  · rw [mkNode_eq_ok]
    rfl

/-- C2: in every state reachable by any sequence of operations (in
particular any interleaving of add/set/addComplex), `build` emits all
selected simple-field tokens first (in `selectedSimple` insertion order)
followed by the stored complex-field strings (in `selectedComplex`
insertion order), space-separated inside one brace pair, and omits the
braces entirely when no fields are selected. -/
theorem c2_build_order (n0 : Node) (ops : List Op) (b : Bool) :
    buildS (applyOps ops n0) b =
      (if b then jsName (applyOps ops n0).name ++ " " else "")
        ++ (if (applyOps ops n0).simple = [] ∧ (applyOps ops n0).cplx = []
            then ""
            else "\x7b" ++ joinSep " "
              ((applyOps ops n0).simple
                ++ (applyOps ops n0).cplx.map (fun p => p.2)) ++ "\x7d") := by
  generalize applyOps ops n0 = n
  unfold buildS
  congr 1
  by_cases h : n.simple = [] ∧ n.cplx = []
  · have hf : n.simple ++ n.cplx.map (fun p => p.2) = [] := by
      simp [h.1, h.2]
    rw [if_pos hf, if_pos h]
  · have hf : ¬(n.simple ++ n.cplx.map (fun p => p.2) = []) := by
      intro hc
      rcases List.append_eq_nil.mp hc with ⟨h1, h2⟩
      exact h ⟨h1, by simpa using h2⟩
    rw [if_neg hf, if_neg h]

/-- C3 counterexample: with two parameters the code joins the variable
declarations with a newline, not with a comma and space, so the claimed
comma-separated declaration parenthetical is wrong. -/
theorem c3_newline_cex :
    createScript "query" "getX" (some (Sum.inr "\x7bf\x7d"))
      [("a", "Int"), ("b", "")] =
      "query GET_X ($a: Int\n$b: String!) \x7b getX (a: $a, b: $b)\x7bf\x7d \x7d"
    ∧ createScript "query" "getX" (some (Sum.inr "\x7bf\x7d"))
      [("a", "Int"), ("b", "")] ≠
      "query GET_X ($a: Int, $b: String!) \x7b getX (a: $a, b: $b)\x7bf\x7d \x7d" := by
  constructor
  · rfl
  · decide

/-- C3 amended: `createScript` produces the claimed document shape except
that the variable declarations inside the outer parenthetical are
newline-separated (`$var: Type` entries, an empty type string defaulted to
String!), and both parentheticals are omitted entirely when
`paramsMapping` is empty. -/
theorem c3_decl_format (k nm : String) (rs : Option (Node ⊕ String))
    (ps : List (String × String)) :
    createScript k nm rs ps =
      k ++ " " ++ createOperationName nm ++ " " ++ specDeclParen ps
        ++ " \x7b " ++ nm ++ " " ++ specArgsParen ps ++ specResPart rs
        ++ " \x7d" :=
  createScript_eq k nm rs ps

/-- C4 counterexample: the spec's end-to-end example expects the result
selection to carry the node's own name (`... getAuthor  author \x7bid
name\x7d ...`), but `createScript` serializes the node with `build(false)`
which omits the name prefix; the actual document differs from the claimed
string. -/
theorem c4_example_cex :
    createScript "query" "getAuthor" (some (Sum.inl authorNode)) [] =
      "query GET_AUTHOR  \x7b getAuthor \x7bid name\x7d \x7d"
    ∧ createScript "query" "getAuthor" (some (Sum.inl authorNode)) [] ≠
      "query GET_AUTHOR  \x7b getAuthor  author \x7bid name\x7d \x7d" := by
  constructor
  · rfl
  · decide

/-- C4 amended: `createOperationName "getAuthor"` is GET_AUTHOR, and the
assembled query for the default author node (selection id, name) is
`query GET_AUTHOR  \x7b getAuthor \x7bid name\x7d \x7d` — the result
selection is serialized via `build(false)`, without the node's name
prefix. -/
theorem c4_get_author_example :
    createOperationName "getAuthor" = "GET_AUTHOR"
    ∧ createScript "query" "getAuthor" (some (Sum.inl authorNode)) [] =
      "query GET_AUTHOR  \x7b getAuthor \x7bid name\x7d \x7d" :=
  ⟨rfl, rfl⟩

/-- C10: when `resultSchema` is absent the JS concatenation `'...' + null`
stringifies the null, so the document carries the literal text "null" in
the result-selection position; in particular
`createScript "query" "getX"` with no parameters yields
`query GET_X  \x7b getX null \x7d`. -/
theorem c10_null_result :
    (∀ (k nm : String) (ps : List (String × String)),
      createScript k nm none ps =
        k ++ " " ++ createOperationName nm ++ " " ++ specDeclParen ps
          ++ " \x7b " ++ nm ++ " " ++ specArgsParen ps ++ "null"
          ++ " \x7d")
    ∧ createScript "query" "getX" none [] =
      "query GET_X  \x7b getX null \x7d" := by
  constructor
  · intro k nm ps
    exact createScript_eq k nm none ps
  · rfl

/-- C5: attachment is a snapshot. After `parent.addComplex(child)` the
parent stores the string `child.build()` captured at attach time; mutating
the child afterwards (any operation sequence) leaves the parent cell — and
hence `parent.build()` — unchanged; the stored entry changes (to the
mutated child's serialization) only when `addComplex` is called again. -/
theorem c5_snapshot_attachment (p c : Node) (s : String) (ops : List Op)
    (b : Bool) (h1 : c.name = some s) (h2 : s ≠ "")
    (h3 : mHasOpt p.originComplex s = true) :
    mGet (attachChild (p, c)).1.cplx s = some (buildS c true)
    ∧ buildS (mutateChild ops (attachChild (p, c))).1 b
      = buildS (attachChild (p, c)).1 b
    ∧ mGet (attachChild (mutateChild ops (attachChild (p, c)))).1.cplx s
      = some (buildS (applyOps ops c) true) := by
  obtain ⟨m, hoc⟩ : ∃ m, p.originComplex = some m := by
    cases hpc : p.originComplex with
    | none =>
      unfold mHasOpt at h3
      rw [hpc] at h3
      cases h3
    | some m => exact ⟨m, rfl⟩
  have hhas : mHas m s = true := by
    unfold mHasOpt at h3
    rw [hoc] at h3
    exact h3
  have hatt : addComplexS p (some c) =
      { p with cplx := mSet p.cplx s (buildS c true) } :=
    addComplexS_some_eq p c s h1 h2 hoc hhas
  refine ⟨?_, rfl, ?_⟩
  · show mGet (addComplexS p (some c)).cplx s = some (buildS c true)
    rw [hatt]
    exact mGet_mSet_self
  · show mGet (addComplexS (addComplexS p (some c))
      (some (applyOps ops c))).cplx s = some (buildS (applyOps ops c) true)
    have hname : (applyOps ops c).name = some s :=
      ((applyOps_pres ops c).1).trans h1
    have hoc2 : (addComplexS p (some c)).originComplex = some m :=
      ((addComplexS_pres p (some c)).2.2.1).trans hoc
    rw [addComplexS_some_eq (addComplexS p (some c)) (applyOps ops c) s
      hname h2 hoc2 hhas]
    exact mGet_mSet_self

/-- C5 witness: book parent, publisher child, one mutation op. -/
theorem c5_snapshot_attachment_witness :
    pubNode.name = some "publisher" ∧ ("publisher" : String) ≠ ""
    ∧ mHasOpt bookNode.originComplex "publisher" = true
    ∧ (mGet (attachChild (bookNode, pubNode)).1.cplx "publisher"
        = some (buildS pubNode true)
      ∧ buildS (mutateChild [Op.removeOp "address"]
          (attachChild (bookNode, pubNode))).1 true
        = buildS (attachChild (bookNode, pubNode)).1 true
      ∧ mGet (attachChild (mutateChild [Op.removeOp "address"]
          (attachChild (bookNode, pubNode)))).1.cplx "publisher"
        = some (buildS (applyOps [Op.removeOp "address"] pubNode) true)) :=
  ⟨rfl, by decide, rfl,
    c5_snapshot_attachment bookNode pubNode "publisher"
      [Op.removeOp "address"] true rfl (by decide) rfl⟩

/-- C7: a field name appearing both in the supplied simple list and among
the complex pairs is removed from `originSimple` during registry
construction, and in every reachable state it is never a member of
`selectedSimple` (hence never emitted as a bare simple leaf by `build`). -/
theorem c7_complex_precedence (s : List String) (nm : Option String)
    (i : Option (List String)) (c : List (String × Registry)) (f : String)
    (n : Node) (_hs : f ∈ s) (hc : f ∈ c.map (fun p => p.1))
    (hok : mkNode s nm i c = Except.ok n) :
    f ∉ n.originSimple ∧ ∀ ops : List Op, f ∉ (applyOps ops n).simple := by
  have hn : mkNodeCore s nm i c = n := by
    rw [mkNode_eq_ok] at hok
    exact Except.ok.inj hok
  subst hn
  have hnos : f ∉ (mkNodeCore s nm i c).originSimple := by
    rw [mkNodeCore_originSimple]
    unfold mkOriginSimple
    cases hcc : c with
    | nil =>
      rw [hcc] at hc
      cases hc
    | cons p ps =>
      have hkeys : f ∈ (mapFromPairs (p :: ps)).map (fun q => q.1) :=
        mHas_iff.mp (mHas_mapFromPairs.mpr (hcc ▸ hc))
      have hkeys2 : f ∈ keysOpt (mkOriginComplex (p :: ps)) := by
        unfold mkOriginComplex keysOpt
        exact hkeys
      exact not_mem_foldl_sDel hkeys2
  refine ⟨hnos, ?_⟩
  intro ops hmem
  have hinv := selInv_applyOps ops _ (selInv_mkNodeCore s nm i c)
  have h1 := hinv.1 f hmem
  rw [(applyOps_pres ops (mkNodeCore s nm i c)).2.1] at h1
  exact hnos h1

/-- C7 witness: the book registry, where publisher is both a raw simple
name and a complex key. -/
theorem c7_complex_precedence_witness :
    ("publisher" ∈ ["title", "publisher"])
    ∧ ("publisher" ∈ [("publisher", pubReg)].map (fun p => p.1))
    ∧ ("publisher" ∉ (mkNodeCore ["title", "publisher"] (some "book") none
        [("publisher", pubReg)]).originSimple
      ∧ "publisher" ∉ (applyOps [Op.addOp ["publisher"]]
        (mkNodeCore ["title", "publisher"] (some "book") none
          [("publisher", pubReg)])).simple) := by
  have h := c7_complex_precedence ["title", "publisher"] (some "book") none
    [("publisher", pubReg)] "publisher"
    (mkNodeCore ["title", "publisher"] (some "book") none
      [("publisher", pubReg)])
    (by decide) (by decide) (mkNode_eq_ok _ _ _ _)
  exact ⟨by decide, by decide, h.1, h.2 [Op.addOp ["publisher"]]⟩

/-- C8: in every state reachable from a successful construction by any
sequence of the public operations, `selectedSimple` is a subset of
`originSimple` and the key set of `selectedComplex` is a subset of the key
set of `originComplex`. -/
theorem c8_selection_subsets (s : List String) (nm : Option String)
    (i : Option (List String)) (c : List (String × Registry)) (n : Node)
    (hok : mkNode s nm i c = Except.ok n) (ops : List Op) :
    (∀ f ∈ (applyOps ops n).simple, f ∈ (applyOps ops n).originSimple)
    ∧ (∀ p ∈ (applyOps ops n).cplx,
        p.1 ∈ keysOpt (applyOps ops n).originComplex) := by
  have hn : mkNodeCore s nm i c = n := by
    rw [mkNode_eq_ok] at hok
    exact Except.ok.inj hok
  subst hn
  exact selInv_applyOps ops _ (selInv_mkNodeCore s nm i c)

/-- C8 witness: the author registry with a mixed operation sequence. -/
theorem c8_selection_subsets_witness :
    mkNode ["id", "name", "books"] (some "author") none [("books", bookReg)]
      = Except.ok (mkNodeCore ["id", "name", "books"] (some "author") none
        [("books", bookReg)])
    ∧ ((∀ f ∈ (applyOps [Op.addOp ["books", "zzz"]]
        (mkNodeCore ["id", "name", "books"] (some "author") none
          [("books", bookReg)])).simple,
        f ∈ (applyOps [Op.addOp ["books", "zzz"]]
          (mkNodeCore ["id", "name", "books"] (some "author") none
            [("books", bookReg)])).originSimple)
      ∧ (∀ p ∈ (applyOps [Op.addOp ["books", "zzz"]]
          (mkNodeCore ["id", "name", "books"] (some "author") none
            [("books", bookReg)])).cplx,
          p.1 ∈ keysOpt (applyOps [Op.addOp ["books", "zzz"]]
            (mkNodeCore ["id", "name", "books"] (some "author") none
              [("books", bookReg)])).originComplex)) :=
  ⟨mkNode_eq_ok _ _ _ _,
    c8_selection_subsets ["id", "name", "books"] (some "author") none
      [("books", bookReg)] _ (mkNode_eq_ok _ _ _ _)
      [Op.addOp ["books", "zzz"]]⟩

/-- C9 counterexample: `set` with an unknown field does not leave the
selection unchanged — it is `clear()` followed by `add(...)`, so the
previously selected simple fields are wiped. -/
theorem c9_set_clears_cex :
    (setF pubNode ["zzz"]).simple = []
    ∧ pubNode.simple = ["name", "address"]
    ∧ ¬((setF pubNode ["zzz"]).simple = pubNode.simple
        ∧ (setF pubNode ["zzz"]).cplx = pubNode.cplx) := by
  refine ⟨by decide, by decide, ?_⟩
  intro h
  have := h.1
  revert this
  decide

/-- C9 amended: invalid inputs are silent no-ops for `add` (unknown field),
`addComplex` (absent value, null/empty name, or unregistered name) and
`remove` (field not selected), and none of these operations signals an
error (all are total); `set` with an unknown field, however, is
`clear()` followed by `add(...)` and therefore leaves the selection empty
rather than unchanged (the unknown field itself is still ignored without
error). -/
theorem c9_invalid_input_noops (n c : Node) (f : String) :
    (f ∉ n.originSimple → mHasOpt n.originComplex f = false →
      addF n [f] = n ∧ setF n [f] = clearS n)
    ∧ addComplexS n none = n
    ∧ (c.name = none → addComplexS n (some c) = n)
    ∧ (c.name = some "" → addComplexS n (some c) = n)
    ∧ (∀ s, c.name = some s → mHasOpt n.originComplex s = false →
        addComplexS n (some c) = n)
    ∧ (f ∉ n.simple → mHas n.cplx f = false → removeS n f = n) := by
  refine ⟨?_, rfl, ?_, ?_, ?_, ?_⟩
  · intro h1 h2
    refine ⟨addF_unknown_noop n f h1 h2, ?_⟩
    exact addF_unknown_noop (clearS n) f h1 h2
  · intro h
    simp only [addComplexS, h]
  · intro h
    simp only [addComplexS, h]
    rfl
  · intro s h1 h2
    exact addComplexS_unregistered n c s h1 h2
  · exact removeS_noop n f

/-- C9 witness: the publisher node, an unknown field name, and a child
whose name is not registered on the publisher registry. -/
theorem c9_invalid_input_noops_witness :
    ("zzz" ∉ pubNode.originSimple)
    ∧ mHasOpt pubNode.originComplex "zzz" = false
    ∧ bookNode.name = some "book"
    ∧ mHasOpt pubNode.originComplex "book" = false
    ∧ ("zzz" ∉ pubNode.simple) ∧ mHas pubNode.cplx "zzz" = false
    ∧ (addF pubNode ["zzz"] = pubNode ∧ setF pubNode ["zzz"] = clearS pubNode)
    ∧ addComplexS pubNode none = pubNode
    ∧ addComplexS pubNode (some bookNode) = pubNode
    ∧ removeS pubNode "zzz" = pubNode :=
  ⟨by decide, by decide, rfl, by decide, by decide, by decide,
    (c9_invalid_input_noops pubNode bookNode "zzz").1 (by decide) (by decide),
    (c9_invalid_input_noops pubNode bookNode "zzz").2.1,
    (c9_invalid_input_noops pubNode bookNode "zzz").2.2.2.2.1 "book" rfl
      (by decide),
    (c9_invalid_input_noops pubNode bookNode "zzz").2.2.2.2.2 (by decide)
      (by decide)⟩

/-- C6 counterexample: a complex field registered under the empty name is
skipped by `useSimpleOnly(true)` — `addComplex` treats the empty child
name as falsy — so `selectedComplex` does not contain one instance of
every registered complex field. -/
theorem c6_empty_name_cex :
    "" ∈ keysOpt emptyNameNode.originComplex
    ∧ (useSimpleOnlyS emptyNameNode true).cplx = []
    ∧ "" ∉ (useSimpleOnlyS emptyNameNode true).cplx.map (fun p => p.1) := by
  refine ⟨by decide, by decide, by decide⟩

/-- C6 amended: a node constructed with an empty or absent initial field
list, and any reachable node after `useSimpleOnly(false)`, selects exactly
`originSimple` and no complex fields; after `useSimpleOnly(true)` it
selects `originSimple` plus — provided every registered complex field name
is nonempty — one default-populated instance of every registered complex
field (a field registered under the empty name is skipped, because
`addComplex` treats the empty child name as falsy). -/
theorem c6_default_population (s : List String) (nm : Option String)
    (i : Option (List String)) (c : List (String × Registry)) (ops : List Op)
    (n0 n : Node) (hinit : i = none ∨ i = some [])
    (hn0 : n0 = mkNodeCore s nm i c) (hn : n = applyOps ops n0) :
    (n0.simple = n0.originSimple ∧ n0.cplx = [])
    ∧ ((useSimpleOnlyS n false).simple = n.originSimple
      ∧ (useSimpleOnlyS n false).cplx = [])
    ∧ ((∀ f ∈ keysOpt n.originComplex, f ≠ "") →
        (useSimpleOnlyS n true).simple = n.originSimple
        ∧ (useSimpleOnlyS n true).cplx = specDefaultCplx n.originComplex) := by
  subst hn
  subst hn0
  have hocn : (applyOps ops (mkNodeCore s nm i c)).originComplex
      = mkOriginComplex c :=
    ((applyOps_pres ops (mkNodeCore s nm i c)).2.2).trans
      (mkNodeCore_originComplex s nm i c)
  have hosn : (applyOps ops (mkNodeCore s nm i c)).originSimple
      = mkOriginSimple s c :=
    ((applyOps_pres ops (mkNodeCore s nm i c)).2.1).trans
      (mkNodeCore_originSimple s nm i c)
  have hnodup : (applyOps ops (mkNodeCore s nm i c)).originSimple.Nodup := by
    rw [hosn]
    exact mkOriginSimple_nodup s c
  have hinv : SelInv (applyOps ops (mkNodeCore s nm i c)) :=
    selInv_applyOps ops _ (selInv_mkNodeCore s nm i c)
  refine ⟨?_, useSimpleOnlyS_false_selection _ hnodup
    (cplx_nil_of_none _ hinv), ?_⟩
  · have hpart1 : ∀ j : Option (List String), j = none ∨ j = some [] →
        (mkNodeCore s nm j c).simple = (mkNodeCore s nm j c).originSimple
        ∧ (mkNodeCore s nm j c).cplx = [] := by
      intro j hj
      have hbase : ∀ x : Node, x.originSimple = mkOriginSimple s c →
          x.cplx = [] →
          (useSimpleOnlyS x false).simple = (useSimpleOnlyS x false).originSimple
          ∧ (useSimpleOnlyS x false).cplx = [] := by
        intro x hx1 hx2
        have hsel := useSimpleOnlyS_false_selection x
          (by rw [hx1]; exact mkOriginSimple_nodup s c) (fun _ => hx2)
        exact ⟨hsel.1.trans ((useSimpleOnlyS_pres x false).2.1).symm, hsel.2⟩
      rcases hj with rfl | rfl
      · exact hbase (Node.mk nm (mkOriginSimple s c) (mkOriginComplex c) [] [])
          rfl rfl
      · exact hbase (Node.mk nm (mkOriginSimple s c) (mkOriginComplex c) [] [])
          rfl rfl
    exact hpart1 i hinit
  · intro hne
    cases hmc : (applyOps ops (mkNodeCore s nm i c)).originComplex with
    | none =>
      rw [useSimpleOnlyS_none _ true hmc]
      refine ⟨setFromList_eq_self hnodup, ?_⟩
      rw [hmc]
      exact cplx_nil_of_none (applyOps ops (mkNodeCore s nm i c)) hinv hmc
    | some m =>
      rw [useSimpleOnlyS_true_some _ hmc]
      have hm : m = mapFromPairs c :=
        mkOriginComplex_some (hocn.symm.trans hmc)
      have hkeysnodup : (m.map (fun p => p.1)).Nodup := by
        rw [hm]
        exact keys_nodup_mapFromPairs c
      have hfold := foldl_attach_cplx m
        (Node.mk (applyOps ops (mkNodeCore s nm i c)).name
          (applyOps ops (mkNodeCore s nm i c)).originSimple
          (some m)
          (setFromList (applyOps ops (mkNodeCore s nm i c)).originSimple)
          ([] : List (String × String)))
        rfl
        (fun p hp => mHas_iff.mpr (List.mem_map.mpr ⟨p, hp, rfl⟩))
        (fun p hp => hne p.1 (by rw [hmc]; exact List.mem_map.mpr ⟨p, hp, rfl⟩))
        (fun p _ => rfl)
        hkeysnodup
      constructor
      · have hpres := foldl_attach_pres m
          ({ applyOps ops (mkNodeCore s nm i c) with
            simple := setFromList
              (applyOps ops (mkNodeCore s nm i c)).originSimple,
            cplx := ([] : List (String × String)) })
        exact hpres.2.2.2.trans (setFromList_eq_self hnodup)
      · rw [hmc]
        exact hfold.trans (List.nil_append _)

/-- C6 witness: the author registry (nonempty complex names), no initial
fields, one mutation op. -/
theorem c6_default_population_witness :
    ((none : Option (List String)) = none ∨ (none : Option (List String)) = some [])
    ∧ (∀ f ∈ keysOpt (applyOps [Op.addOp ["books"]]
        (mkNodeCore ["id", "name", "books"] (some "author") none
          [("books", bookReg)])).originComplex, f ≠ "")
    ∧ (((mkNodeCore ["id", "name", "books"] (some "author") none
          [("books", bookReg)]).simple
        = (mkNodeCore ["id", "name", "books"] (some "author") none
          [("books", bookReg)]).originSimple
      ∧ (mkNodeCore ["id", "name", "books"] (some "author") none
          [("books", bookReg)]).cplx = [])
      ∧ ((useSimpleOnlyS (applyOps [Op.addOp ["books"]]
          (mkNodeCore ["id", "name", "books"] (some "author") none
            [("books", bookReg)])) false).simple
          = (applyOps [Op.addOp ["books"]]
            (mkNodeCore ["id", "name", "books"] (some "author") none
              [("books", bookReg)])).originSimple
        ∧ (useSimpleOnlyS (applyOps [Op.addOp ["books"]]
            (mkNodeCore ["id", "name", "books"] (some "author") none
              [("books", bookReg)])) false).cplx = [])
      ∧ ((useSimpleOnlyS (applyOps [Op.addOp ["books"]]
          (mkNodeCore ["id", "name", "books"] (some "author") none
            [("books", bookReg)])) true).simple
          = (applyOps [Op.addOp ["books"]]
            (mkNodeCore ["id", "name", "books"] (some "author") none
              [("books", bookReg)])).originSimple
        ∧ (useSimpleOnlyS (applyOps [Op.addOp ["books"]]
            (mkNodeCore ["id", "name", "books"] (some "author") none
              [("books", bookReg)])) true).cplx
          = specDefaultCplx (applyOps [Op.addOp ["books"]]
            (mkNodeCore ["id", "name", "books"] (some "author") none
              [("books", bookReg)])).originComplex)) := by
  have h := c6_default_population ["id", "name", "books"] (some "author")
    none [("books", bookReg)] [Op.addOp ["books"]] _ _
    (Or.inl rfl) rfl rfl
  exact ⟨Or.inl rfl, by decide,
    h.1, h.2.1, h.2.2 (by decide)⟩

end GqlBuilder
